import Mathlib

/-!
Verification of the natural-language specification of the RP-Studio chat
backend against its source (src/server.js).  The source file holds two
variants of the server:

* variant A (embedding retrieval): loadKnowledge / pushChunks with an
  800-character cap and 150-character overlap, buildOrLoadEmbeddings with a
  disk cache, cosineSim, findRelevantChunksEmbedding, and a chat route that
  numbers the retrieved passages as a Studio Reference block;
* variant B (keyword retrieval): loadKnowledge / pushChunks with a
  2000-character cap, the synonym and phrase-boost scorer
  findRelevantChunks, and a chat route that may append the contents of an
  optional instructions file to the system prompt.

JavaScript strings are modelled as lists of characters; machine floats of
the embedding scorer are modelled as real numbers; the embedding API and
the pdf extractor are modelled as function-valued oracles; the filesystem
is modelled as an optional list of directory entries.  Reads that the code
wraps in try/catch are modelled as total.
-/

set_option maxHeartbeats 1000000
set_option maxRecDepth 100000

abbrev Str := List Char

def strL (s : String) : Str := s.toList

/-- Word characters of the JavaScript regex class backslash-w. -/
def isWordChar (c : Char) : Bool := c.isAlpha || c.isDigit || c == '_'

/-- One character of the first normalisation pass of norm (server.js line
340): every character that is not a letter, digit or whitespace becomes a
space. -/
def keepChar (c : Char) : Char :=
  if c.isAlpha || c.isDigit || c.isWhitespace then c else ' '

/-- Second normalisation pass of norm: each maximal whitespace run becomes
a single space.  The flag records whether the previous character was
whitespace, so only the first character of a run is kept. -/
def collapseWsAux (prevWs : Bool) : Str → Str
  | [] => []
  | c :: rest =>
    if c.isWhitespace then
      if prevWs then collapseWsAux true rest else ' ' :: collapseWsAux true rest
    else
      c :: collapseWsAux false rest

def collapseWs (s : Str) : Str := collapseWsAux false s

/-- JavaScript String.prototype.trim on both ends. -/
def trimStr (s : Str) : Str :=
  ((s.dropWhile Char.isWhitespace).reverse.dropWhile Char.isWhitespace).reverse

/-- norm of findRelevantChunks (server.js lines 340-344): lower-case,
strip punctuation to spaces, collapse whitespace, trim. -/
def normStr (s : Str) : Str :=
  trimStr (collapseWs ((s.map Char.toLower).map keepChar))

/-- JavaScript String.prototype.includes: pat occurs as a contiguous
substring of text. -/
def containsSub : Str → Str → Bool
  | [], pat => pat.isEmpty
  | c :: rest, pat => pat.isPrefixOf (c :: rest) || containsSub rest pat

/-- JavaScript String.prototype.split with a single-character separator. -/
def splitChar (sep : Char) : Str → List Str
  | [] => [[]]
  | c :: rest =>
    match splitChar sep rest with
    | [] => if c = sep then [[], []] else [[c]]
    | h :: t => if c = sep then [] :: h :: t else (c :: h) :: t

/-- JavaScript Set.prototype.add: keep insertion order, no duplicates. -/
def addToken (ts : List Str) (t : Str) : List Str :=
  if ts.contains t then ts else ts ++ [t]

/-- The synonymSets table of findRelevantChunks (server.js lines 348-357). -/
def synonymSets : List (List Str) :=
  [ [strL ("retest"), strL ("re test"), strL ("re-test"), strL ("retake"),
     strL ("re take"), strL ("re-take")],
    [strL ("fee"), strL ("cost"), strL ("charge"), strL ("payment"), strL ("price")],
    [strL ("wait"), strL ("waiting"), strL ("delay"), strL ("hold"), strL ("gap"),
     strL ("cooldown"), strL ("cool down")],
    [strL ("period"), strL ("window"), strL ("timeframe"), strL ("timeline")],
    [strL ("hours"), strL ("requirements"), strL ("prerequisites"), strL ("prereq")],
    [strL ("policy"), strL ("rule"), strL ("guideline"), strL ("guidance")],
    [strL ("exam"), strL ("practical"), strL ("test"), strL ("assessment")],
    [strL ("schedule"), strL ("book"), strL ("arrange")] ]

/-- The phraseBoosts table of findRelevantChunks (server.js lines 366-378). -/
def phraseBoosts : List Str :=
  [ strL ("retest fee"), strL ("re test fee"), strL ("re-test fee"),
    strL ("waiting period"), strL ("wait period"), strL ("retest waiting"),
    strL ("re test waiting"), strL ("re-test waiting"), strL ("how many hours"),
    strL ("hours to retest"), strL ("hours before retest") ]

/-- One synonym-set step of findRelevantChunks (lines 360-364): when a set
member is already a token, every member of the set is added. -/
def applySyn (ts : List Str) (syns : List Str) : List Str :=
  if syns.any (fun w => ts.contains w) then syns.foldl addToken ts else ts

/-- The initial token set: words of the normalised question of length
greater than two, deduplicated in insertion order. -/
def baseTokens (q : Str) : List Str :=
  ((splitChar ' ' q).filter (fun w => 2 < w.length)).foldl addToken []

/-- qTokens of findRelevantChunks after all synonym expansion (lines
359-364). -/
def qTokensOf (q : Str) : List Str :=
  synonymSets.foldl applySyn (baseTokens q)

/-- Word boundary on the left of a regex match position. -/
def boundaryOk : Option Char → Bool
  | none => true
  | some c => !(isWordChar c)

/-- Word boundary on the right of a regex match. -/
def endBoundary : Str → Bool
  | [] => true
  | c :: _ => !(isWordChar c)

/-- The tail test of the regex for retest variants. -/
def startsTest : Str → Bool
  | 't' :: 'e' :: 's' :: 't' :: rest => endBoundary rest
  | _ => false

/-- The regex re, optional whitespace-or-hyphen, test with a right word
boundary, anchored at the head of the list. -/
def retestAt : Str → Bool
  | 'r' :: 'e' :: rest =>
    startsTest rest ||
      (match rest with
       | c :: rest2 => (c.isWhitespace || c == '-') && startsTest rest2
       | [] => false)
  | _ => false

def hasRetestAux : Option Char → Str → Bool
  | _, [] => false
  | prev, c :: rest => (boundaryOk prev && retestAt (c :: rest)) || hasRetestAux (some c) rest

/-- The test of the regex at server.js line 390. -/
def hasRetest (s : Str) : Bool := hasRetestAux none s

def hasNumberAux : Option Char → Str → Bool
  | _, [] => false
  | prev, c :: rest => (boundaryOk prev && c.isDigit) || hasNumberAux (some c) rest

/-- The test of the digit regex at server.js lines 392-393. -/
def hasNumberStr (s : Str) : Bool := hasNumberAux none s

/-- The score that findRelevantChunks (server.js lines 380-397) assigns to
one chunk for a given question: one point per distinct question token
contained in the normalised chunk, six points per matching boost phrase,
four points for a shared retest mention, two points for numbers on both
sides. -/
def chunkScore (question chunk : Str) : Nat :=
  let q := normStr question
  let qTokens := qTokensOf q
  let text := normStr chunk
  (qTokens.filter (fun t => containsSub text t)).length
    + 6 * (phraseBoosts.filter (fun p => containsSub text p)).length
    + (if hasRetest q && hasRetest text then 4 else 0)
    + (if hasNumberStr q && hasNumberStr text then 2 else 0)

/-- findRelevantChunks (server.js lines 337-404): score every chunk, sort
by descending score with a stable sort, keep the first max, drop
non-positive scores, return the chunk texts. -/
def findRelevantChunks (question : Str) (max : Nat) (knowledgeChunks : List Str) : List Str :=
  if knowledgeChunks.isEmpty then [] else
    let scored := knowledgeChunks.map (fun c => (c, chunkScore question c))
    ((((scored.mergeSort (fun a b => decide (b.2 ≤ a.2))).take max).filter
        (fun x => decide (0 < x.2))).map (fun x => x.1))

/-- JavaScript String.prototype.split on the regex of two or more
newlines (the separator of pushChunks in both variants): pending counts
the newlines of the current run; a run of length at least two separates
blocks, a single newline stays inside its block.  acc is the current block
in reverse. -/
def sbAux (acc : Str) (pending : Nat) : Str → List Str
  | [] =>
    if 2 ≤ pending then [acc.reverse, []]
    else [(List.replicate pending '\n' ++ acc).reverse]
  | c :: rest =>
    if c = '\n' then sbAux acc (pending + 1) rest
    else if 2 ≤ pending then acc.reverse :: sbAux [c] 0 rest
    else sbAux (c :: (List.replicate pending '\n' ++ acc)) 0 rest

def splitBlankRuns (s : Str) : List Str := sbAux [] 0 s

/-- The blank-line blocks both pushChunks variants build: split on runs of
two or more newlines, trim each part, drop empty parts. -/
def blocksOf (text : Str) : List Str :=
  ((splitBlankRuns text).map trimStr).filter (fun s => !s.isEmpty)

/-- Variant B soft chunking of a long paragraph (server.js lines 326-329):
slices of 2000 characters, no overlap. -/
def sliceLoopB (p : Str) (i : Nat) : List Str :=
  if h : i < p.length then (p.drop i).take 2000 :: sliceLoopB p (i + 2000) else []
termination_by p.length - i
decreasing_by omega

/-- pushChunks of variant B (server.js lines 316-334).  The global
knowledgeChunks array is modelled by returning the pushed list. -/
def pushChunksB (text : Str) : List Str :=
  (blocksOf text).flatMap (fun p => if 2000 < p.length then sliceLoopB p 0 else [p])

/-- Variant A slicing loop of an over-long block (server.js lines 90-96):
slices of at most MAX = 800 characters, stepping by MAX - OVERLAP = 650,
stopping after the slice that reaches the end. -/
def sliceLoopA (b : Str) (i : Nat) : List Str :=
  if h : i < b.length then
    if b.length ≤ i + 800 then [(b.drop i).take 800]
    else (b.drop i).take 800 :: sliceLoopA b (i + 650)
  else []
termination_by b.length - i
decreasing_by omega

/-- One knowledge chunk of variant A: a text slice and its source
document name. -/
structure Chunk where
  text : Str
  source : Str
  deriving DecidableEq

/-- pushChunks of variant A (server.js lines 78-99): blocks of the
carriage-return-stripped text; blocks of at most 800 characters are kept
whole, longer ones are sliced with overlap. -/
def pushChunksA (text source : Str) : List Chunk :=
  (blocksOf (text.filter (fun c => c != '\r'))).flatMap (fun b =>
    if b.length ≤ 800 then [Chunk.mk b source]
    else (sliceLoopA b 0).map (fun t => Chunk.mk t source))

/-- A directory entry of the modelled filesystem: its name, whether it is
a regular file, and the text the server would obtain from it (file
contents for .txt, extracted text for .pdf). -/
structure Entry where
  name : Str
  isFile : Bool
  text : Str
  deriving DecidableEq

def lowerStr (s : Str) : Str := s.map Char.toLower

def endsWithStr (s suf : Str) : Bool := suf.isSuffixOf s

def startsDot : Str → Bool
  | '.' :: _ => true
  | _ => false

/-- normName (server.js lines 33-35): strip one case-insensitive .pdf or
.txt extension, then trim. -/
def normName (f : Str) : Str :=
  trimStr
    (if endsWithStr (lowerStr f) (strL (".pdf")) || endsWithStr (lowerStr f) (strL (".txt"))
     then f.take (f.length - 4) else f)

/-- The chunks one directory entry contributes in variant A (server.js
lines 47-71): only regular files, .txt always, .pdf only when pdf-parse is
available. -/
def fileChunksA (hasPdf : Bool) (e : Entry) : List Chunk :=
  if !e.isFile then []
  else if endsWithStr (lowerStr e.name) (strL (".txt")) then pushChunksA e.text (normName e.name)
  else if endsWithStr (lowerStr e.name) (strL (".pdf")) then
    if hasPdf then pushChunksA e.text (normName e.name) else []
  else []

/-- The corpus variant A loadKnowledge builds (server.js lines 37-76):
empty when the knowledge directory is missing; otherwise the dot-filtered
entries are folded over, each appending its chunks. -/
def loadChunksA (hasPdf : Bool) (dir : Option (List Entry)) : List Chunk :=
  match dir with
  | none => []
  | some entries =>
    (entries.filter (fun e => !startsDot e.name)).foldl
      (fun acc e => acc ++ fileChunksA hasPdf e) []

/-- The chunks one directory entry contributes in variant B (server.js
lines 286-312). -/
def fileChunksB (hasPdf : Bool) (e : Entry) : List Str :=
  if !e.isFile then []
  else if endsWithStr (lowerStr e.name) (strL (".txt")) then pushChunksB e.text
  else if endsWithStr (lowerStr e.name) (strL (".pdf")) then
    if hasPdf then pushChunksB e.text else []
  else []

/-- The corpus variant B loadKnowledge builds (server.js lines 278-314);
variant B does not filter dot files. -/
def loadChunksB (hasPdf : Bool) (dir : Option (List Entry)) : List Str :=
  match dir with
  | none => []
  | some entries => entries.foldl (fun acc e => acc ++ fileChunksB hasPdf e) []

/-- loadKnowledge of variant B as a state transformer: the previous
corpus is discarded first (knowledgeChunks = [] at server.js line 279). -/
def loadKnowledgeB (prevChunks : List Str) (hasPdf : Bool) (dir : Option (List Entry)) : List Str :=
  loadChunksB hasPdf dir

/-- The fresh-build batch loop of buildOrLoadEmbeddings (server.js lines
115-127): batches of 64 texts, each answered by the embedding oracle. -/
def batchLoop {V : Type} (emb : Str → V) (texts : List Str) (i : Nat) : List V :=
  if h : i < texts.length then
    ((texts.drop i).take 64).map emb ++ batchLoop emb texts (i + 64)
  else []
termination_by texts.length - i
decreasing_by omega

/-- buildOrLoadEmbeddings (server.js lines 103-135): a readable cached
index whose vector count equals the chunk count is used as-is; otherwise
the vectors are rebuilt from the chunk texts. -/
def buildOrLoadEmbeddings {V : Type} (cache : Option (List V)) (emb : Str → V)
    (knowledge : List Chunk) : List V :=
  match cache with
  | some vecs =>
    if vecs.length = knowledge.length then vecs
    else batchLoop emb (knowledge.map (fun k => k.text)) 0
  | none => batchLoop emb (knowledge.map (fun k => k.text)) 0

/-- loadKnowledge of variant A as a state transformer over the pair of
knowledge and embeddings: both globals are reset, the run returns early
when the directory is missing, and otherwise the corpus is rebuilt and
buildOrLoadEmbeddings is run.  Also the body of the POST /reload handler
(server.js lines 222-229). -/
def loadKnowledgeA {V : Type} (prev : List Chunk × List V) (hasPdf : Bool)
    (dir : Option (List Entry)) (cache : Option (List V)) (emb : Str → V) :
    List Chunk × List V :=
  match dir with
  | none => ([], [])
  | some _ =>
    let knowledge := loadChunksA hasPdf dir
    (knowledge, buildOrLoadEmbeddings cache emb knowledge)

/-- The accumulator loop of cosineSim (server.js lines 137-144) over the
length of the first vector: dot product, squared norm of a, squared norm
of the used prefix of b.  An out-of-range read of b is modelled as 0. -/
def simSums : List ℝ → List ℝ → ℝ × ℝ × ℝ
  | [], _ => (0, 0, 0)
  | x :: xs, ys =>
    let y := ys.headD 0
    let r := simSums xs ys.tail
    (r.1 + x * y, r.2.1 + x * x, r.2.2 + y * y)

/-- cosineSim (server.js lines 137-144).  Machine floats are modelled as
real numbers; 1e-8 keeps the denominator nonzero. -/
noncomputable def cosineSim (a b : List ℝ) : ℝ :=
  let s := simSums a b
  s.1 / (Real.sqrt s.2.1 * Real.sqrt s.2.2 + 1 / 100000000)

/-- The observable shape of one findRelevantChunksEmbedding run: either it
returns without calling the embedding API, or it issues exactly one query
for the question embedding and continues with the answer vector. -/
inductive EmbedCall : Type where
  | noCall (res : List Chunk)
  | withQuery (f : List ℝ → List Chunk)

/-- findRelevantChunksEmbedding (server.js lines 146-159): an empty
corpus or index short-circuits to the empty list before any API call;
otherwise every stored vector is scored by cosine similarity against the
question embedding, the pairs are stably sorted by descending score, the
first k survive and are mapped back to their knowledge chunks.  An
out-of-range knowledge index is modelled by the empty chunk. -/
noncomputable def embedRank (knowledge : List Chunk) (embeddings : List (List ℝ))
    (k : Nat) (qVec : List ℝ) : List Chunk :=
  (((embeddings.enum.map (fun p => (p.1, cosineSim qVec p.2))).mergeSort
      (fun a b => decide (b.2 ≤ a.2))).take k).map
    (fun p => knowledge.getD p.1 (Chunk.mk [] []))

noncomputable def findRelevantChunksEmbedding (knowledge : List Chunk)
    (embeddings : List (List ℝ)) (k : Nat) : EmbedCall :=
  if knowledge.isEmpty || embeddings.isEmpty then EmbedCall.noCall []
  else EmbedCall.withQuery (embedRank knowledge embeddings k)

/-- The fixed system instruction of the variant A chat route (server.js
lines 172-175). -/
def systemA : Str :=
  strL ("You are the Real Pilates® Studio Team Assistant.\nUse warm, professional, concise language (2–4 sentences).\nAnswer ONLY from \"Studio Reference\" below. If the answer is not clearly present, say \"I don’t have that in the RP Studio docs.\"\nCite the primary source in parentheses at the end, e.g., \"(Employee Handbook)\".")

/-- The fixed part of the variant B system instruction (server.js lines
421-424), before the optional instructions file is appended. -/
def systemBFixed : Str :=
  strL ("You are the Real Pilates® Studio Team Assistant.\nUse warm, professional, on-brand language aligned with Real Pilates® studio operations.\nONLY answer using the Studio policies and the provided \"Studio Reference\" context below.\nIf the answer is not clearly present, say: \"I don’t have that in the RP Studio docs.\"")

/-- The whole variant B system instruction: the template appends two
newlines and the RPTT_INSTRUCTIONS.txt contents when that file was read
and nonempty. -/
def systemB (instructions : Str) : Str :=
  systemBFixed ++ (if instructions.isEmpty then [] else strL ("\n\n") ++ instructions)

def natStr (n : Nat) : Str := (Nat.repr n).toList

/-- One numbered reference line of the variant A context template
(server.js line 169). -/
def refItemA (p : Nat × Chunk) : Str :=
  strL ("[") ++ natStr (p.1 + 1) ++ strL ("] (") ++ p.2.source ++ strL (") ") ++ p.2.text

/-- The Studio Reference context block of variant A (server.js lines
167-170): empty when nothing was retrieved. -/
def contextA (hits : List Chunk) : Str :=
  if hits.isEmpty then [] else
    strL ("\n\nStudio Reference:\n") ++
      List.intercalate (strL ("\n\n")) (hits.enum.map refItemA) ++ strL ("\n\n")

/-- One numbered reference line of the variant B context template
(server.js line 418). -/
def refItemB (p : Nat × Str) : Str :=
  strL ("[") ++ natStr (p.1 + 1) ++ strL ("] ") ++ p.2

/-- The Studio Reference context block of variant B (server.js lines
416-419). -/
def contextB (hits : List Str) : Str :=
  if hits.isEmpty then [] else
    strL ("\n\nStudio Reference (from uploaded PDFs):\n") ++
      List.intercalate (strL ("\n\n")) (hits.enum.map refItemB) ++ strL ("\n\n")

/-- The input array forwarded to the model by variant A (server.js lines
177-183): the system turn is the instruction plus the context block, the
user turn is the user message. -/
def chatInputA (msg : Str) (hits : List Chunk) : List (Str × Str) :=
  [(strL ("system"), systemA ++ contextA hits), (strL ("user"), msg)]

/-- The input array forwarded to the model by variant B (server.js lines
426-432). -/
def chatInputB (instructions msg : Str) (hits : List Str) : List (Str × Str) :=
  [(strL ("system"), systemB instructions ++ contextB hits), (strL ("user"), msg)]

/-- The text object of one content item of the responses API output. -/
structure CText where
  value : Str
  deriving DecidableEq

/-- One content item; the text object may be absent. -/
structure CItem where
  text : Option CText
  deriving DecidableEq

/-- One output event; the content array may be absent. -/
structure OutEv where
  content : Option (List CItem)
  deriving DecidableEq

/-- The model API response as the route reads it: output_text (empty
models a missing or empty field), the optional output event array, and
the optional response.output_text that only variant B reads. -/
structure ApiOut where
  output_text : Str
  output : Option (List OutEv)
  response_output_text : Option Str
  deriving DecidableEq

def itemText (c : CItem) : Str :=
  match c.text with
  | some t => t.value
  | none => []

/-- The extraction both routes share (server.js lines 185-192 and
435-445): output_text when truthy, else the joined and trimmed event
texts when output is an array, else the empty string. -/
def extractBase (o : ApiOut) : Str :=
  if !o.output_text.isEmpty then o.output_text
  else
    match o.output with
    | some evs =>
      trimStr (List.intercalate (strL ("\n"))
        ((evs.flatMap (fun ev => ev.content.getD [])).map itemText))
    | none => []

def fallbackA : Str := strL ("I don’t have that in the RP Studio docs.")

def fallbackB : Str := strL ("I don’t have that in the RPTT Guide.")

/-- The reply of variant A (server.js line 193): the extraction or the
fallback sentence. -/
def replyA (o : ApiOut) : Str :=
  let r := extractBase o
  if r.isEmpty then fallbackA else r

/-- The reply of variant B (server.js lines 446-449): additionally
response.output_text is tried before the fallback sentence. -/
def replyB (o : ApiOut) : Str :=
  let r1 := extractBase o
  let r2 :=
    if r1.isEmpty && !(o.response_output_text.getD []).isEmpty
    then o.response_output_text.getD [] else r1
  if r2.isEmpty then fallbackB else r2

/-- The HTTP outcome of one POST /api/chat request. -/
inductive ChatResp : Type where
  | ok (reply : Str)
  | err (status : Nat) (error : Str)
  deriving DecidableEq

/-- The catch handlers of both routes (server.js lines 196-199 and
453-456) send the error message, or a fixed text when it is empty. -/
def errMsg (m : Str) : Str := if m.isEmpty then strL ("Server error") else m

/-- The variant A route outcome, as a function of the awaited model call
(or the exception any awaited step threw). -/
def chatRouteA (apiResult : Except Str ApiOut) : ChatResp :=
  match apiResult with
  | Except.error m => ChatResp.err 500 (errMsg m)
  | Except.ok o => ChatResp.ok (replyA o)

/-- The variant B route outcome. -/
def chatRouteB (apiResult : Except Str ApiOut) : ChatResp :=
  match apiResult with
  | Except.error m => ChatResp.err 500 (errMsg m)
  | Except.ok o => ChatResp.ok (replyB o)

/-- The global server state of variant B that the keyword retriever can
see; only knowledgeChunks is read by it. -/
structure ServerStateB where
  knowledgeChunks : List Str
  instructions : Str
  deriving DecidableEq

/-- findRelevantChunks as called from the route: a pure read of the
question and the knowledgeChunks field of the state. -/
def findRelevantChunksSt (st : ServerStateB) (question : Str) (max : Nat) : List Str :=
  findRelevantChunks question max st.knowledgeChunks

/-- Rendering of the reference block exactly as claim C5 words it for
variant A: the passages numbered from 1 in retrieval order.  This
definition follows the claim, not the code, and is compared with the code
side. -/
def specNumberedA (n : Nat) : List Chunk → List Str
  | [] => []
  | h :: t =>
    (strL ("[") ++ natStr n ++ strL ("] (") ++ h.source ++ strL (") ") ++ h.text)
      :: specNumberedA (n + 1) t

/-- The claim-side variant A context: nothing when no passages were
retrieved, else the numbered Studio Reference block. -/
def specContextA (hits : List Chunk) : Str :=
  if hits.isEmpty then [] else
    strL ("\n\nStudio Reference:\n") ++
      List.intercalate (strL ("\n\n")) (specNumberedA 1 hits) ++ strL ("\n\n")

/-- The claim-side variant A prompt: exactly the fixed system instruction
followed by the reference block, then the user turn. -/
def specChatInputA (msg : Str) (hits : List Chunk) : List (Str × Str) :=
  [(strL ("system"), systemA ++ specContextA hits), (strL ("user"), msg)]

/-- Claim-side numbering for variant B. -/
def specNumberedB (n : Nat) : List Str → List Str
  | [] => []
  | h :: t => (strL ("[") ++ natStr n ++ strL ("] ") ++ h) :: specNumberedB (n + 1) t

/-- The claim-side variant B context block. -/
def specContextB (hits : List Str) : Str :=
  if hits.isEmpty then [] else
    strL ("\n\nStudio Reference (from uploaded PDFs):\n") ++
      List.intercalate (strL ("\n\n")) (specNumberedB 1 hits) ++ strL ("\n\n")

/-- The claim-side variant B prompt: exactly the fixed system instruction
followed by the reference block, then the user turn — with no provision
for the optional instructions file. -/
def specChatInputB (msg : Str) (hits : List Str) : List (Str × Str) :=
  [(strL ("system"), systemBFixed ++ specContextB hits), (strL ("user"), msg)]

/-! Helper lemmas. -/

theorem map_refItemA_enumFrom :
    ∀ (l : List Chunk) (n : Nat), (List.enumFrom n l).map refItemA = specNumberedA (n + 1) l := by
  intro l
  induction l with
  | nil => intro n; rfl
  | cons h t ih =>
    intro n
    simp only [List.enumFrom_cons, List.map_cons, specNumberedA, ih (n + 1)]
    rfl

theorem map_refItemB_enumFrom :
    ∀ (l : List Str) (n : Nat), (List.enumFrom n l).map refItemB = specNumberedB (n + 1) l := by
  intro l
  induction l with
  | nil => intro n; rfl
  | cons h t ih =>
    intro n
    simp only [List.enumFrom_cons, List.map_cons, specNumberedB, ih (n + 1)]
    rfl

theorem contextA_eq_spec (hits : List Chunk) : contextA hits = specContextA hits := by
  unfold contextA specContextA
  have h : hits.enum.map refItemA = specNumberedA 1 hits := by
    have := map_refItemA_enumFrom hits 0
    simpa [List.enum] using this
  rw [h]

theorem contextB_eq_spec (hits : List Str) : contextB hits = specContextB hits := by
  unfold contextB specContextB
  have h : hits.enum.map refItemB = specNumberedB 1 hits := by
    have := map_refItemB_enumFrom hits 0
    simpa [List.enum] using this
  rw [h]

/-- Descending-score sortedness of the stable sort both retrievers use. -/
theorem pairwise_mergeSort_desc {β R : Type} [LinearOrder R] (l : List (β × R)) :
    (l.mergeSort (fun a b => decide (b.2 ≤ a.2))).Pairwise (fun a b => b.2 ≤ a.2) := by
  have h := @List.sorted_mergeSort (β × R) (fun a b => decide (b.2 ≤ a.2))
    (fun a b c hab hbc => by
      simp only [decide_eq_true_eq] at *
      exact le_trans hbc hab)
    (fun a b => by
      rcases le_total a.2 b.2 with h | h <;> simp [h])
    l
  exact h.imp (fun hab => by simpa using hab)

/-- Folding list-append over an accumulator is concatenation. -/
theorem foldl_append_flatMap {α β : Type} (f : α → List β) :
    ∀ (l : List α) (acc : List β),
      l.foldl (fun acc e => acc ++ f e) acc = acc ++ l.flatMap f := by
  intro l
  induction l with
  | nil => intro acc; simp
  | cons a t ih => intro acc; simp [ih, List.append_assoc]

theorem ite_isEmpty_ne_nil (fb r : Str) (hfb : fb ≠ []) :
    (if r.isEmpty then fb else r) ≠ [] := by
  by_cases h : r = []
  · subst h; simp [hfb]
  · simp [List.isEmpty_iff, h]

theorem replyA_ne_nil (o : ApiOut) : replyA o ≠ [] := by
  unfold replyA
  exact ite_isEmpty_ne_nil _ _ (by decide)

theorem replyB_ne_nil (o : ApiOut) : replyB o ≠ [] := by
  unfold replyB
  exact ite_isEmpty_ne_nil _ _ (by decide)

/-- Eligibility of one directory entry in variant B: a regular file whose
lower-cased name ends in .txt, or in .pdf when pdf-parse is available. -/
def eligB (hasPdf : Bool) (e : Entry) : Bool :=
  e.isFile && (endsWithStr (lowerStr e.name) (strL (".txt")) ||
    (hasPdf && endsWithStr (lowerStr e.name) (strL (".pdf"))))

theorem fileChunksB_eq (hasPdf : Bool) (e : Entry) :
    fileChunksB hasPdf e = if eligB hasPdf e then pushChunksB e.text else [] := by
  unfold fileChunksB eligB
  cases hf : e.isFile <;>
    cases ht : endsWithStr (lowerStr e.name) (strL (".txt")) <;>
      cases hp : endsWithStr (lowerStr e.name) (strL (".pdf")) <;>
        cases hasPdf <;> simp [hf, ht, hp]

theorem fileChunksA_eq (hasPdf : Bool) (e : Entry) :
    fileChunksA hasPdf e =
      if eligB hasPdf e then pushChunksA e.text (normName e.name) else [] := by
  unfold fileChunksA eligB
  cases hf : e.isFile <;>
    cases ht : endsWithStr (lowerStr e.name) (strL (".txt")) <;>
      cases hp : endsWithStr (lowerStr e.name) (strL (".pdf")) <;>
        cases hasPdf <;> simp [hf, ht, hp]

theorem flatMap_ite_filter {α β : Type} (p : α → Bool) (f : α → List β) (l : List α) :
    (l.flatMap (fun e => if p e then f e else [])) = (l.filter p).flatMap f := by
  induction l with
  | nil => rfl
  | cons a t ih => by_cases h : p a <;> simp [h, ih]

theorem loadChunksB_eq (hasPdf : Bool) (entries : List Entry) :
    loadChunksB hasPdf (some entries) =
      (entries.filter (eligB hasPdf)).flatMap (fun e => pushChunksB e.text) := by
  show (List.foldl (fun acc e => acc ++ fileChunksB hasPdf e) [] entries) = _
  rw [foldl_append_flatMap]
  simp only [List.nil_append]
  have h : entries.flatMap (fileChunksB hasPdf) =
      entries.flatMap (fun e => if eligB hasPdf e then pushChunksB e.text else []) := by
    congr 1
    funext e
    exact fileChunksB_eq hasPdf e
  rw [h, flatMap_ite_filter]

theorem loadChunksA_eq (hasPdf : Bool) (entries : List Entry) :
    loadChunksA hasPdf (some entries) =
      ((entries.filter (fun e => !startsDot e.name)).filter (eligB hasPdf)).flatMap
        (fun e => pushChunksA e.text (normName e.name)) := by
  show (List.foldl (fun acc e => acc ++ fileChunksA hasPdf e) []
    (entries.filter (fun e => !startsDot e.name))) = _
  rw [foldl_append_flatMap]
  simp only [List.nil_append]
  have h : (entries.filter (fun e => !startsDot e.name)).flatMap (fileChunksA hasPdf) =
      (entries.filter (fun e => !startsDot e.name)).flatMap
        (fun e => if eligB hasPdf e then pushChunksA e.text (normName e.name) else []) := by
    congr 1
    funext e
    exact fileChunksA_eq hasPdf e
  rw [h, flatMap_ite_filter]

/-- Claim C6: the keyword retriever is a deterministic pure function of
the question and the in-memory chunk list; two calls that agree on the
question string and on knowledgeChunks return equal lists, whatever the
rest of the server state holds. -/
theorem keyword_retriever_deterministic :
    ∀ (st1 st2 : ServerStateB) (q1 q2 : Str) (max : Nat),
      q1 = q2 → st1.knowledgeChunks = st2.knowledgeChunks →
      findRelevantChunksSt st1 q1 max = findRelevantChunksSt st2 q2 max := by
  intro st1 st2 q1 q2 max hq hk
  unfold findRelevantChunksSt
  rw [hq, hk]

theorem keyword_retriever_deterministic_witness :
    ((strL ("q") : Str) = strL ("q") ∧
      (ServerStateB.mk [strL ("a")] (strL ("x"))).knowledgeChunks =
        (ServerStateB.mk [strL ("a")] (strL ("y"))).knowledgeChunks) ∧
    findRelevantChunksSt (ServerStateB.mk [strL ("a")] (strL ("x"))) (strL ("q")) 5 =
      findRelevantChunksSt (ServerStateB.mk [strL ("a")] (strL ("y"))) (strL ("q")) 5 :=
  ⟨⟨rfl, rfl⟩,
    keyword_retriever_deterministic (ServerStateB.mk [strL ("a")] (strL ("x")))
      (ServerStateB.mk [strL ("a")] (strL ("y"))) (strL ("q")) (strL ("q")) 5 rfl rfl⟩

/-- Claim C9: with an empty corpus both retrievers return the empty list,
the embedding retriever without issuing any embedding API call, and the
chat route still succeeds, with a prompt carrying no Studio Reference
block. -/
theorem empty_corpus_behaviour :
    (∀ (q : Str) (max : Nat), findRelevantChunks q max [] = []) ∧
    (∀ (embeddings : List (List ℝ)) (k : Nat),
      findRelevantChunksEmbedding [] embeddings k = EmbedCall.noCall []) ∧
    (∀ (knowledge : List Chunk) (k : Nat),
      findRelevantChunksEmbedding knowledge [] k = EmbedCall.noCall []) ∧
    contextA [] = [] ∧ contextB [] = [] ∧
    (∀ msg : Str,
      chatInputA msg [] = [(strL ("system"), systemA), (strL ("user"), msg)] ∧
      chatInputB [] msg [] = [(strL ("system"), systemBFixed), (strL ("user"), msg)]) ∧
    (∀ o : ApiOut, ∃ r, chatRouteA (Except.ok o) = ChatResp.ok r) ∧
    (∀ o : ApiOut, ∃ r, chatRouteB (Except.ok o) = ChatResp.ok r) := by
  refine ⟨?_, ?_, ?_, ?_, ?_, ?_, ?_, ?_⟩
  · intro q max; simp [findRelevantChunks]
  · intro embeddings k; simp [findRelevantChunksEmbedding]
  · intro knowledge k; simp [findRelevantChunksEmbedding]
  · simp [contextA]
  · simp [contextB]
  · intro msg
    constructor
    · simp [chatInputA, contextA]
    · simp [chatInputB, contextB, systemB]
  · intro o; exact ⟨replyA o, rfl⟩
  · intro o; exact ⟨replyB o, rfl⟩

/-- Claim C8: every chat request gets either a 200 with a non-empty reply
string (the fixed fallback sentence when the model output is empty or
unparsable) or, when a step throws, a 500 with an error field. -/
theorem chat_route_outcomes :
    (∀ r : Except Str ApiOut,
      ((∃ s, chatRouteA r = ChatResp.ok s ∧ s ≠ []) ∨
        (∃ m, chatRouteA r = ChatResp.err 500 m)) ∧
      ((∃ s, chatRouteB r = ChatResp.ok s ∧ s ≠ []) ∨
        (∃ m, chatRouteB r = ChatResp.err 500 m))) ∧
    (∀ o : ApiOut, extractBase o = [] →
      chatRouteA (Except.ok o) = ChatResp.ok fallbackA) ∧
    (∀ o : ApiOut, extractBase o = [] → o.response_output_text.getD [] = [] →
      chatRouteB (Except.ok o) = ChatResp.ok fallbackB) := by
  refine ⟨?_, ?_, ?_⟩
  · intro r
    cases r with
    | error m => exact ⟨Or.inr ⟨errMsg m, rfl⟩, Or.inr ⟨errMsg m, rfl⟩⟩
    | ok o => exact ⟨Or.inl ⟨replyA o, rfl, replyA_ne_nil o⟩, Or.inl ⟨replyB o, rfl, replyB_ne_nil o⟩⟩
  · intro o h
    simp [chatRouteA, replyA, h]
  · intro o h1 h2
    simp [chatRouteB, replyB, h1, h2]

theorem chat_route_outcomes_witness :
    extractBase (ApiOut.mk [] none none) = [] ∧
    chatRouteA (Except.ok (ApiOut.mk [] none none)) = ChatResp.ok fallbackA :=
  ⟨by decide, chat_route_outcomes.2.1 (ApiOut.mk [] none none) (by decide)⟩

/-- Claim C4: loadKnowledge first discards the previous corpus, then
rebuilds it solely from the regular files of the current knowledge
directory whose names end in .txt or .pdf (case-insensitively); other
files and subdirectories contribute nothing, and a missing directory
yields the empty corpus.  The result is a function of the directory
contents alone, independent of the previously loaded corpus. -/
theorem load_knowledge_rebuild :
    (∀ hasPdf : Bool, loadChunksB hasPdf none = [] ∧ loadChunksA hasPdf none = []) ∧
    (∀ (hasPdf : Bool) (entries : List Entry),
      loadChunksB hasPdf (some entries) =
        (entries.filter (eligB hasPdf)).flatMap (fun e => pushChunksB e.text)) ∧
    (∀ (hasPdf : Bool) (entries : List Entry),
      loadChunksA hasPdf (some entries) =
        ((entries.filter (fun e => !startsDot e.name)).filter (eligB hasPdf)).flatMap
          (fun e => pushChunksA e.text (normName e.name))) ∧
    (∀ (prev1 prev2 : List Str) (hasPdf : Bool) (dir : Option (List Entry)),
      loadKnowledgeB prev1 hasPdf dir = loadKnowledgeB prev2 hasPdf dir) ∧
    (∀ {V : Type} (prev1 prev2 : List Chunk × List V) (hasPdf : Bool)
      (dir : Option (List Entry)) (cache : Option (List V)) (emb : Str → V),
      loadKnowledgeA prev1 hasPdf dir cache emb = loadKnowledgeA prev2 hasPdf dir cache emb) := by
  refine ⟨?_, ?_, ?_, ?_, ?_⟩
  · intro hasPdf; exact ⟨rfl, rfl⟩
  · exact loadChunksB_eq
  · exact loadChunksA_eq
  · intro prev1 prev2 hasPdf dir; rfl
  · intro V prev1 prev2 hasPdf dir cache emb; rfl

theorem batchLoop_eq_map {V : Type} (emb : Str → V) (texts : List Str) (i : Nat) :
    batchLoop emb texts i = (texts.drop i).map emb := by
  induction i using batchLoop.induct emb texts with
  | case1 i h ih =>
    rw [batchLoop, dif_pos h, ih, ← List.map_append, ← List.drop_drop, List.take_append_drop]
  | case2 i h =>
    rw [batchLoop, dif_neg h, List.drop_eq_nil_of_le (by omega), List.map_nil]

/-- Claim C3 as the code actually behaves: after a completed loadKnowledge
run the embeddings are rebuilt from the current chunk texts whenever no
cached index with exactly matching vector count is readable, and the
cached vectors are reused as-is whenever the count matches — even if they
were computed from a different corpus. -/
theorem embeddings_match_corpus :
    ∀ {V : Type} (prev : List Chunk × List V) (hasPdf : Bool) (dir : Option (List Entry))
      (cache : Option (List V)) (emb : Str → V),
      (∀ vecs, cache = some vecs → vecs.length = (loadChunksA hasPdf dir).length →
        (loadKnowledgeA prev hasPdf dir cache emb).2 = vecs) ∧
      ((cache = none ∨
          ∀ vecs, cache = some vecs → vecs.length ≠ (loadChunksA hasPdf dir).length) →
        (loadKnowledgeA prev hasPdf dir cache emb).2 =
          (loadKnowledgeA prev hasPdf dir cache emb).1.map (fun c => emb c.text)) := by
  intro V prev hasPdf dir cache emb
  constructor
  · intro vecs hc hlen
    cases dir with
    | none =>
      simp only [loadChunksA, List.length_nil] at hlen
      simp [loadKnowledgeA, List.length_eq_zero.mp hlen]
    | some entries =>
      simp only [loadKnowledgeA, buildOrLoadEmbeddings, hc, hlen, if_true]
  · intro hmiss
    cases dir with
    | none => simp [loadKnowledgeA]
    | some entries =>
      simp only [loadKnowledgeA]
      cases cache with
      | none =>
        simp only [buildOrLoadEmbeddings, batchLoop_eq_map, List.drop_zero, List.map_map]
        rfl
      | some vecs =>
        rcases hmiss with h | h
        · exact absurd h (by simp)
        · have hne := h vecs rfl
          simp only [buildOrLoadEmbeddings, if_neg hne, batchLoop_eq_map, List.drop_zero,
            List.map_map]
          rfl

theorem embeddings_match_corpus_witness :
    (((none : Option (List Nat)) = none) ∨
      ∀ vecs, (none : Option (List Nat)) = some vecs →
        vecs.length ≠ (loadChunksA true (some [Entry.mk (strL ("a.txt")) true (strL ("hi"))])).length) ∧
    (loadKnowledgeA ([], []) true (some [Entry.mk (strL ("a.txt")) true (strL ("hi"))])
        (none : Option (List Nat)) (fun _ => 7)).2 =
      (loadKnowledgeA ([], []) true (some [Entry.mk (strL ("a.txt")) true (strL ("hi"))])
        (none : Option (List Nat)) (fun _ => 7)).1.map (fun c => (fun _ => 7) c.text) :=
  ⟨Or.inl rfl,
    (embeddings_match_corpus ([], []) true (some [Entry.mk (strL ("a.txt")) true (strL ("hi"))])
      none (fun _ => 7)).2 (Or.inl rfl)⟩

/-- Claim C3 as frozen is false: a cached index from a previous corpus is
reused whenever its vector count happens to match the current chunk
count.  Here the corpus is the single chunk bbb but the loaded embeddings
are the cached vector 1, not the embedding 0 of bbb. -/
theorem embeddings_stale_cache_counterexample :
    (loadKnowledgeA ([], []) true (some [Entry.mk (strL ("b.txt")) true (strL ("bbb"))])
        (some [(1 : Nat)]) (fun _ => 0)).2 ≠
      (loadKnowledgeA ([], []) true (some [Entry.mk (strL ("b.txt")) true (strL ("bbb"))])
        (some [(1 : Nat)]) (fun _ => 0)).1.map (fun _ => (0 : Nat)) := by
  decide

/-- Claim C5 as frozen is false for the keyword variant: when the optional
RPTT_INSTRUCTIONS.txt file is nonempty its contents are appended to the
system instruction, so the forwarded prompt is not exactly the fixed
instruction followed by the reference block. -/
theorem chat_prompt_counterexample :
    chatInputB (strL ("X")) [] [] ≠ specChatInputB [] [] := by
  decide

/-- Claim C5 as amended: the prompt is the fixed system instruction — in
the keyword variant followed by the optional instructions-file contents
when nonempty — followed by the numbered Studio Reference block in
retrieval order (or by nothing), followed by the user message as the user
turn; and on success the reply field carries the model answer text. -/
theorem chat_prompt_spec :
    ∀ (instr msg : Str) (hitsA : List Chunk) (hitsB : List Str) (o : ApiOut),
      chatInputA msg hitsA = specChatInputA msg hitsA ∧
      chatInputB instr msg hitsB =
        [(strL ("system"),
          systemBFixed ++ ((if instr.isEmpty then [] else strL ("\n\n") ++ instr) ++
            specContextB hitsB)),
         (strL ("user"), msg)] ∧
      (o.output_text ≠ [] →
        chatRouteA (Except.ok o) = ChatResp.ok o.output_text ∧
        chatRouteB (Except.ok o) = ChatResp.ok o.output_text) := by
  intro instr msg hitsA hitsB o
  refine ⟨?_, ?_, ?_⟩
  · simp [chatInputA, specChatInputA, contextA_eq_spec]
  · simp [chatInputB, systemB, contextB_eq_spec, List.append_assoc]
  · intro h
    have hb : o.output_text.isEmpty = false := by
      cases ho : o.output_text with
      | nil => exact absurd ho h
      | cons c t => rfl
    have hext : extractBase o = o.output_text := by
      unfold extractBase
      rw [hb]
      simp
    constructor
    · simp [chatRouteA, replyA, hext, hb]
    · simp [chatRouteB, replyB, hext, hb]

theorem chat_prompt_spec_witness :
    (ApiOut.mk (strL ("hi")) none none).output_text ≠ [] ∧
    chatRouteA (Except.ok (ApiOut.mk (strL ("hi")) none none)) =
      ChatResp.ok (ApiOut.mk (strL ("hi")) none none).output_text :=
  ⟨by decide, ((chat_prompt_spec [] [] [] [] (ApiOut.mk (strL ("hi")) none none)).2.2
    (by decide)).1⟩

theorem sliceLoopB_mem (p : Str) : ∀ (i : Nat) (c : Str), c ∈ sliceLoopB p i →
    ∃ j, i ≤ j ∧ j < p.length ∧ c = (p.drop j).take 2000 := by
  intro i
  induction i using sliceLoopB.induct p with
  | case1 i h ih =>
    intro c hc
    rw [sliceLoopB, dif_pos h] at hc
    rcases List.mem_cons.mp hc with h1 | h1
    · exact ⟨i, le_refl i, h, h1⟩
    · rcases ih c h1 with ⟨j, hj1, hj2, hj3⟩
      exact ⟨j, by omega, hj2, hj3⟩
  | case2 i h =>
    intro c hc
    rw [sliceLoopB, dif_neg h] at hc
    simp at hc

theorem sliceLoopB_cover (p : Str) : ∀ (i : Nat) (ch : Char), ch ∈ p.drop i →
    ∃ c ∈ sliceLoopB p i, ch ∈ c := by
  intro i
  induction i using sliceLoopB.induct p with
  | case1 i h ih =>
    intro ch hch
    rw [sliceLoopB, dif_pos h]
    rw [← List.take_append_drop 2000 (p.drop i)] at hch
    rcases List.mem_append.mp hch with h1 | h1
    · exact ⟨(p.drop i).take 2000, List.mem_cons_self _ _, h1⟩
    · rw [List.drop_drop] at h1
      rcases ih ch (by simpa using h1) with ⟨c, hc1, hc2⟩
      exact ⟨c, List.mem_cons_of_mem _ hc1, hc2⟩
  | case2 i h =>
    intro ch hch
    rw [List.drop_eq_nil_iff.mpr (by omega)] at hch
    simp at hch

theorem sliceLoopA_mem (b : Str) : ∀ (i : Nat) (c : Str), c ∈ sliceLoopA b i →
    ∃ j, i ≤ j ∧ j < b.length ∧ c = (b.drop j).take 800 := by
  intro i
  induction i using sliceLoopA.induct b with
  | case1 i h h2 =>
    intro c hc
    rw [sliceLoopA, dif_pos h, if_pos h2] at hc
    exact ⟨i, le_refl i, h, (List.mem_singleton.mp hc)⟩
  | case2 i h h2 ih =>
    intro c hc
    rw [sliceLoopA, dif_pos h, if_neg h2] at hc
    rcases List.mem_cons.mp hc with h1 | h1
    · exact ⟨i, le_refl i, h, h1⟩
    · rcases ih c h1 with ⟨j, hj1, hj2, hj3⟩
      exact ⟨j, by omega, hj2, hj3⟩
  | case3 i h =>
    intro c hc
    rw [sliceLoopA, dif_neg h] at hc
    simp at hc

theorem sliceLoopA_cover (b : Str) : ∀ (i : Nat) (ch : Char), ch ∈ b.drop i →
    ∃ c ∈ sliceLoopA b i, ch ∈ c := by
  intro i
  induction i using sliceLoopA.induct b with
  | case1 i h h2 =>
    intro ch hch
    rw [sliceLoopA, dif_pos h, if_pos h2]
    refine ⟨(b.drop i).take 800, List.mem_singleton.mpr rfl, ?_⟩
    rw [List.take_of_length_le (by rw [List.length_drop]; omega)]
    exact hch
  | case2 i h h2 ih =>
    intro ch hch
    rw [sliceLoopA, dif_pos h, if_neg h2]
    rw [← List.take_append_drop 800 (b.drop i)] at hch
    rcases List.mem_append.mp hch with h1 | h1
    · exact ⟨(b.drop i).take 800, List.mem_cons_self _ _, h1⟩
    · rw [List.drop_drop] at h1
      have h3 : ch ∈ b.drop (i + 650) := by
        have h4 : b.drop (i + 800) = (b.drop (i + 650)).drop 150 := by
          rw [List.drop_drop]
        have h5 : ch ∈ (b.drop (i + 650)).drop 150 := by
          rw [← h4]
          simpa using h1
        exact List.Sublist.mem h5 (List.drop_sublist 150 (b.drop (i + 650)))
      rcases ih ch h3 with ⟨c, hc1, hc2⟩
      exact ⟨c, List.mem_cons_of_mem _ hc1, hc2⟩
  | case3 i h =>
    intro ch hch
    rw [List.drop_eq_nil_iff.mpr (by omega)] at hch
    simp at hch

theorem sliceLoopA_head (b : Str) (i : Nat) (h : i < b.length) :
    (sliceLoopA b i).head? = some ((b.drop i).take 800) := by
  rw [sliceLoopA, dif_pos h]
  by_cases h2 : b.length ≤ i + 800 <;> simp [h2]

/-- Consecutive slices of one over-long variant A block agree on a
150-character overlap: the last 150 characters of one slice are the first
150 of the next. -/
theorem sliceLoopA_chain (b : Str) : ∀ i : Nat,
    (sliceLoopA b i).Chain' (fun s t => s.drop 650 = t.take 150) := by
  intro i
  induction i using sliceLoopA.induct b with
  | case1 i h h2 =>
    rw [sliceLoopA, dif_pos h, if_pos h2]
    exact List.chain'_singleton _
  | case2 i h h2 ih =>
    rw [sliceLoopA, dif_pos h, if_neg h2]
    rw [List.chain'_cons']
    refine ⟨?_, ih⟩
    intro t ht
    rw [sliceLoopA_head b (i + 650) (by omega)] at ht
    have ht2 : t = (b.drop (i + 650)).take 800 := Eq.symm (by simpa using ht)
    subst ht2
    rw [List.drop_take, List.drop_drop, List.take_take]
    norm_num

  | case3 i h =>
    rw [sliceLoopA, dif_neg h]
    exact List.chain'_nil

theorem blocksOf_ne_nil {text b : Str} (hb : b ∈ blocksOf text) : b ≠ [] := by
  rcases List.mem_filter.mp hb with ⟨_, h2⟩
  simpa [List.isEmpty_iff] using h2

/-- Claim C7: every stored chunk is a non-empty string within the
variant chunk cap (2000 for the keyword variant, 800 for the embedding
variant), every character of every trimmed block survives into some
chunk, and in the embedding variant consecutive slices of an over-long
block overlap by 150 characters. -/
theorem push_chunks_invariants :
    ∀ (text source : Str),
      (∀ c ∈ pushChunksB text, c ≠ [] ∧ c.length ≤ 2000) ∧
      (∀ c ∈ pushChunksA text source, c.text ≠ [] ∧ c.text.length ≤ 800) ∧
      (∀ b ∈ blocksOf text, ∀ ch ∈ b, ∃ c ∈ pushChunksB text, ch ∈ c) ∧
      (∀ b ∈ blocksOf (text.filter (fun c => c != '\r')), ∀ ch ∈ b,
        ∃ c ∈ pushChunksA text source, ch ∈ c.text) ∧
      (∀ b ∈ blocksOf (text.filter (fun c => c != '\r')), 800 < b.length →
        (sliceLoopA b 0).Chain' (fun s t => s.drop 650 = t.take 150)) := by
  intro text source
  refine ⟨?_, ?_, ?_, ?_, ?_⟩
  · intro c hc
    rcases List.mem_flatMap.mp hc with ⟨p, hp, hcp⟩
    have hpne : p ≠ [] := blocksOf_ne_nil hp
    by_cases hlen : 2000 < p.length
    · rw [if_pos hlen] at hcp
      rcases sliceLoopB_mem p 0 c hcp with ⟨j, _, hj2, hj3⟩
      subst hj3
      constructor
      · rw [Ne, List.take_eq_nil_iff]
        push_neg
        exact ⟨by omega, by rw [Ne, List.drop_eq_nil_iff]; omega⟩
      · exact List.length_take_le 2000 _
    · rw [if_neg hlen] at hcp
      have hcp2 : c = p := List.mem_singleton.mp hcp
      subst hcp2
      exact ⟨hpne, by omega⟩
  · intro c hc
    rcases List.mem_flatMap.mp hc with ⟨p, hp, hcp⟩
    have hpne : p ≠ [] := blocksOf_ne_nil hp
    by_cases hlen : p.length ≤ 800
    · rw [if_pos hlen] at hcp
      have hcp2 : c = Chunk.mk p source := List.mem_singleton.mp hcp
      subst hcp2
      exact ⟨hpne, hlen⟩
    · rw [if_neg hlen] at hcp
      rcases List.mem_map.mp hcp with ⟨t, ht, hts⟩
      rcases sliceLoopA_mem p 0 t ht with ⟨j, _, hj2, hj3⟩
      subst hts
      subst hj3
      constructor
      · rw [Ne, List.take_eq_nil_iff]
        push_neg
        exact ⟨by omega, by rw [Ne, List.drop_eq_nil_iff]; omega⟩
      · exact List.length_take_le 800 _
  · intro b hb ch hch
    by_cases hlen : 2000 < b.length
    · rcases sliceLoopB_cover b 0 ch (by simpa using hch) with ⟨c, hc1, hc2⟩
      exact ⟨c, List.mem_flatMap.mpr ⟨b, hb, by rw [if_pos hlen]; exact hc1⟩, hc2⟩
    · exact ⟨b, List.mem_flatMap.mpr ⟨b, hb, by
        rw [if_neg hlen]; exact List.mem_singleton.mpr rfl⟩, hch⟩
  · intro b hb ch hch
    by_cases hlen : b.length ≤ 800
    · refine ⟨Chunk.mk b source, List.mem_flatMap.mpr ⟨b, hb, by
        rw [if_pos hlen]; exact List.mem_singleton.mpr rfl⟩, hch⟩
    · rcases sliceLoopA_cover b 0 ch (by simpa using hch) with ⟨c, hc1, hc2⟩
      refine ⟨Chunk.mk c source, List.mem_flatMap.mpr ⟨b, hb, by
        rw [if_neg hlen]; exact List.mem_map_of_mem _ hc1⟩, hc2⟩
  · intro b _ _
    exact sliceLoopA_chain b 0

theorem push_chunks_invariants_witness :
    (strL ("ab")) ∈ pushChunksB (strL ("ab\n\ncd")) ∧
    ((strL ("ab")) ≠ [] ∧ (strL ("ab")).length ≤ 2000) :=
  ⟨by decide, (push_chunks_invariants (strL ("ab\n\ncd")) (strL ("s"))).1 (strL ("ab"))
    (by decide)⟩

/-- Claim C1: on a non-empty corpus the keyword retriever scores every
chunk in one pass and returns at most max chunks, each an element of
knowledgeChunks with strictly positive score, in non-increasing score
order. -/
theorem keyword_retriever_spec :
    ∀ (question : Str) (max : Nat) (chunks : List Str), chunks ≠ [] →
      (chunks.map (fun c => (c, chunkScore question c))).length = chunks.length ∧
      (findRelevantChunks question max chunks).length ≤ max ∧
      (∀ c ∈ findRelevantChunks question max chunks,
        c ∈ chunks ∧ 0 < chunkScore question c) ∧
      ((findRelevantChunks question max chunks).map (chunkScore question)).Sorted
        (fun a b => b ≤ a) := by
  intro question max chunks hne
  have hisE : chunks.isEmpty = false := by simpa [List.isEmpty_iff] using hne
  have hdef : findRelevantChunks question max chunks =
      (((((chunks.map (fun c => (c, chunkScore question c))).mergeSort
        (fun a b => decide (b.2 ≤ a.2))).take max).filter
        (fun x => decide (0 < x.2))).map (fun x => x.1)) := by
    simp only [findRelevantChunks, hisE, Bool.false_eq_true, if_false]
  set scored := chunks.map (fun c => (c, chunkScore question c)) with hscored
  set sortedL := scored.mergeSort (fun a b => decide (b.2 ≤ a.2)) with hsortedL
  have hmemScored : ∀ x ∈ scored, x.1 ∈ chunks ∧ x.2 = chunkScore question x.1 := by
    intro x hx
    rcases List.mem_map.mp hx with ⟨c, hc, hcx⟩
    rw [← hcx]
    exact ⟨hc, rfl⟩
  have hsubF : ∀ x ∈ ((sortedL.take max).filter (fun x => decide (0 < x.2))), x ∈ scored := by
    intro x hx
    have h1 : x ∈ sortedL.take max := List.mem_of_mem_filter hx
    have h2 : x ∈ sortedL := List.Sublist.mem h1 (List.take_sublist _ _)
    exact ((List.mergeSort_perm scored _).mem_iff).mp h2
  refine ⟨by rw [hscored]; exact List.length_map _ _, ?_, ?_, ?_⟩
  · rw [hdef]
    calc ((((sortedL.take max).filter (fun x => decide (0 < x.2))).map (fun x => x.1)).length)
        = (((sortedL.take max).filter (fun x => decide (0 < x.2))).length) :=
          List.length_map _ _
      _ ≤ (sortedL.take max).length := List.length_filter_le _ _
      _ ≤ max := List.length_take_le _ _
  · intro c hc
    rw [hdef] at hc
    rcases List.mem_map.mp hc with ⟨x, hx, hxc⟩
    rcases hmemScored x (hsubF x hx) with ⟨h1, h2⟩
    have h3 : 0 < x.2 := by simpa using (List.mem_filter.mp hx).2
    rw [← hxc]
    exact ⟨h1, h2 ▸ h3⟩
  · rw [hdef]
    have hp : sortedL.Pairwise (fun a b => b.2 ≤ a.2) := pairwise_mergeSort_desc scored
    have hpT : ((sortedL.take max).filter (fun x => decide (0 < x.2))).Pairwise
        (fun a b => b.2 ≤ a.2) :=
      List.Pairwise.sublist ((List.filter_sublist _).trans (List.take_sublist _ _)) hp
    rw [List.map_map]
    apply (List.pairwise_map).mpr
    refine List.Pairwise.imp_of_mem ?_ hpT
    intro a b ha hb hab
    have h1 := (hmemScored a (hsubF a ha)).2
    have h2 := (hmemScored b (hsubF b hb)).2
    simp only [Function.comp_apply]
    rw [← h1, ← h2]
    exact hab

theorem keyword_retriever_spec_witness :
    ([strL ("fees")] : List Str) ≠ [] ∧
    (([strL ("fees")] : List Str).map
        (fun c => (c, chunkScore (strL ("fee")) c))).length = ([strL ("fees")] : List Str).length ∧
    (findRelevantChunks (strL ("fee")) 5 [strL ("fees")]).length ≤ 5 ∧
    (∀ c ∈ findRelevantChunks (strL ("fee")) 5 [strL ("fees")],
      c ∈ [strL ("fees")] ∧ 0 < chunkScore (strL ("fee")) c) ∧
    ((findRelevantChunks (strL ("fee")) 5 [strL ("fees")]).map
        (chunkScore (strL ("fee")))).Sorted (fun a b => b ≤ a) :=
  ⟨by decide, keyword_retriever_spec (strL ("fee")) 5 [strL ("fees")] (by decide)⟩

/-- Claim C2: the embedding retriever scores every stored vector against
the question embedding by cosine similarity, and returns the chunks of
the k best-scoring indices in non-increasing similarity order; an empty
knowledge or embeddings list short-circuits to the empty list with no
query.  The index and the corpus have matching lengths after every load,
which is taken as a hypothesis. -/
theorem embedding_retriever_spec :
    ∀ (knowledge : List Chunk) (embeddings : List (List ℝ)) (k : Nat) (qVec : List ℝ),
      embeddings.length = knowledge.length →
      ((knowledge.isEmpty || embeddings.isEmpty) = true →
        findRelevantChunksEmbedding knowledge embeddings k = EmbedCall.noCall []) ∧
      (knowledge ≠ [] → embeddings ≠ [] →
        ∃ f, findRelevantChunksEmbedding knowledge embeddings k = EmbedCall.withQuery f ∧
          ∃ idxs : List Nat,
            f qVec = idxs.map (fun i => knowledge.getD i (Chunk.mk [] [])) ∧
            idxs.length = min k knowledge.length ∧
            idxs.Nodup ∧
            (∀ i ∈ idxs, i < knowledge.length) ∧
            (idxs.map (fun i => cosineSim qVec (embeddings.getD i []))).Sorted
              (fun a b => b ≤ a) ∧
            (∀ i, i < knowledge.length → i ∉ idxs → ∀ j ∈ idxs,
              cosineSim qVec (embeddings.getD i []) ≤
                cosineSim qVec (embeddings.getD j []))) := by
  intro knowledge embeddings k qVec hlen
  constructor
  · intro hcond
    rw [findRelevantChunksEmbedding, if_pos hcond]
  · intro hk he
    have hcond : (knowledge.isEmpty || embeddings.isEmpty) = false := by
      simp [List.isEmpty_iff, hk, he]
    rw [findRelevantChunksEmbedding, if_neg (by simp [hcond])]
    refine ⟨_, rfl, ?_⟩
    rw [embedRank]
    set scored := embeddings.enum.map (fun p => (p.1, cosineSim qVec p.2)) with hscored
    set sortedL := scored.mergeSort (fun a b => decide (b.2 ≤ a.2)) with hsortedL
    have hperm : sortedL.Perm scored := List.mergeSort_perm scored _
    have hlen_sorted : sortedL.length = knowledge.length := by
      rw [hperm.length_eq, hscored, List.length_map, List.enum_length, hlen]
    have hfst_scored : scored.map Prod.fst = List.range embeddings.length := by
      rw [hscored, List.map_map]
      have hcomp : (Prod.fst ∘ fun p : Nat × List ℝ => (p.1, cosineSim qVec p.2)) =
          Prod.fst := funext fun p => rfl
      rw [hcomp, List.enum_map_fst]
    have hmem_scored : ∀ p ∈ scored, p.1 < knowledge.length ∧
        p.2 = cosineSim qVec (embeddings.getD p.1 []) := by
      intro p hp
      rw [hscored] at hp
      rcases List.mem_map.mp hp with ⟨q, hq, hqp⟩
      obtain ⟨i, x⟩ := q
      rcases List.mem_enum hq with ⟨hi, hx⟩
      rw [← hqp]
      constructor
      · show i < knowledge.length
        omega
      · show cosineSim qVec x = cosineSim qVec (embeddings.getD i [])
        rw [List.getD_eq_getElem embeddings [] hi, hx]
    have hidx_scored : ∀ i, i < embeddings.length →
        (i, cosineSim qVec (embeddings.getD i [])) ∈ scored := by
      intro i hi
      have hi2 : i < embeddings.enum.length := by
        rw [List.enum_length]
        exact hi
      have h1 : (i, embeddings[i]) ∈ embeddings.enum := by
        have h2 : embeddings.enum[i] = (i, embeddings[i]) := List.getElem_enum _ _ _
        rw [← h2]
        exact List.getElem_mem hi2
      have h3 := List.mem_map_of_mem
        (fun p : Nat × List ℝ => (p.1, cosineSim qVec p.2)) h1
      rw [hscored]
      have h4 : ((fun p : Nat × List ℝ => (p.1, cosineSim qVec p.2)) (i, embeddings[i])) =
          (i, cosineSim qVec (embeddings.getD i [])) := by
        rw [List.getD_eq_getElem embeddings [] hi]
      rw [← h4]
      exact h3
    set T := sortedL.take k with hT
    set idxs := T.map Prod.fst with hidxs
    have hTsub : ∀ p ∈ T, p ∈ scored := by
      intro p hp
      exact hperm.mem_iff.mp (List.Sublist.mem hp (List.take_sublist _ _))
    refine ⟨idxs, ?_, ?_, ?_, ?_, ?_, ?_⟩
    · rw [hidxs, List.map_map]
      rfl
    · rw [hidxs, List.length_map, hT, List.length_take, hlen_sorted]
    · have h1 : (sortedL.map Prod.fst).Nodup := by
        have h2 := hperm.map Prod.fst
        rw [hfst_scored] at h2
        exact h2.symm.nodup (List.nodup_range _)
      exact List.Nodup.sublist (List.Sublist.map Prod.fst (List.take_sublist _ _)) h1
    · intro i hi
      rcases List.mem_map.mp hi with ⟨p, hp, hpi⟩
      rw [← hpi]
      exact (hmem_scored p (hTsub p hp)).1
    · rw [hidxs, List.map_map]
      apply (List.pairwise_map).mpr
      have hpair : sortedL.Pairwise (fun a b => b.2 ≤ a.2) := pairwise_mergeSort_desc scored
      have hpT : T.Pairwise (fun a b => b.2 ≤ a.2) :=
        List.Pairwise.sublist (List.take_sublist _ _) hpair
      refine List.Pairwise.imp_of_mem ?_ hpT
      intro a b ha hb hab
      have h1 := (hmem_scored a (hTsub a ha)).2
      have h2 := (hmem_scored b (hTsub b hb)).2
      simp only [Function.comp_apply]
      rw [← h1, ← h2]
      exact hab
    · intro i hi hnot j hj
      rcases List.mem_map.mp hj with ⟨p, hp, hpj⟩
      have hj2 := (hmem_scored p (hTsub p hp)).2
      have hmem : (i, cosineSim qVec (embeddings.getD i [])) ∈ sortedL :=
        hperm.mem_iff.mpr (hidx_scored i (by omega))
      rw [← List.take_append_drop k sortedL] at hmem
      rcases List.mem_append.mp hmem with hmT | hmD
      · exact absurd (List.mem_map_of_mem Prod.fst hmT) hnot
      · have hpair : sortedL.Pairwise (fun a b => b.2 ≤ a.2) := pairwise_mergeSort_desc scored
        have hsplit : sortedL.Pairwise (fun a b => b.2 ≤ a.2) := hpair
        rw [← List.take_append_drop k sortedL] at hsplit
        have hcross := (List.pairwise_append.mp hsplit).2.2
        have h3 := hcross p hp _ hmD
        simp only at h3
        rw [← hpj, ← hj2]
        exact h3

theorem embedding_retriever_spec_witness :
    (([] : List (List ℝ)).length = ([] : List Chunk).length) ∧
    ((([] : List Chunk).isEmpty || ([] : List (List ℝ)).isEmpty) = true) ∧
    findRelevantChunksEmbedding [] [] 3 = EmbedCall.noCall [] :=
  ⟨rfl, rfl, (embedding_retriever_spec [] [] 3 [] rfl).1 rfl⟩

